import Mathlib

/-!
Shallow embedding of `reflexdisparity.py` ("ling-utils" repository): the affix
stripper `rm_affixes` (regex `^\S+-|-\S+$|<\S+>` applied via `re.sub` /
`re.findall`), the grouping utility `groupby`, the row chunker `chunk`, the
`CognateSet` entity with its distance `matrix` and `mean_distance`, and the
dataset loader `load_reflex_data`.  Python runtime failures (IndexError,
ValueError, NameError) are modelled with an explicit error type and `Except`.
-/

deriving instance DecidableEq for Except

namespace RefDisp

/-- Python runtime error classes that the embedded code can raise. -/
inductive PyErr where
  | valueError
  | indexError
  | nameError
  | zeroDivisionError
deriving DecidableEq

/-- Negation of Python's regex whitespace class: the `\S` character class of
the pattern in `rm_affixes`. -/
def nonspace (c : Char) : Bool := !c.isWhitespace

/-- Index of the last occurrence of `ch` in `l`, if any.  Used to express the
greedy (longest-`\S+`) backtracking of the regex alternatives `^\S+-` and
`<\S+>`: the greedy `\S+` stops just before the last viable `-` (resp. `>`)
inside a run of non-whitespace characters. -/
def lastHit (ch : Char) : List Char → Option Nat
  | [] => none
  | c :: l =>
    match lastHit ch l with
    | some j => some (j + 1)
    | none => if c = ch then some 0 else none

/-- Gate for the greedy hit index: the `\S+` of `^\S+-` and `<\S+>` must be
nonempty, so only a hit at index at least 1 yields a match. -/
def gateIdx (o : Option Nat) : Option Nat :=
  match o with
  | some j => if 1 ≤ j then some j else none
  | none => none

/-- Match length data for the alternative `^\S+-` of the pattern in
`rm_affixes`, anchored at the start of the string: `some k` means the match
consumes `s.take (k+1)`, where `k` is the largest index with `s.take k` all
non-whitespace and `s[k] = '-'` (greedy `\S+`, which requires `k ≥ 1`). -/
def preIdx (s : List Char) : Option Nat :=
  gateIdx (lastHit '-' (s.takeWhile nonspace))

/-- Match length data for the alternative `<\S+>` of the pattern in
`rm_affixes`, tried at the current scan position: for `s = '<' :: rest`,
`some j` means the match consumes `s.take (j+2)`, where `j` is the largest
index with `rest.take j` all non-whitespace and `rest[j] = '>'` (greedy
`\S+`, which requires `j ≥ 1`). -/
def infIdx (s : List Char) : Option Nat :=
  match s with
  | c :: rest =>
    if c = '<' then gateIdx (lastHit '>' (rest.takeWhile nonspace)) else none
  | [] => none

/-- Match length for the alternative `-\S+$` of the pattern in `rm_affixes`,
tried at the current scan position (the scanned list is always a tail of the
whole string, so end-of-list is end-of-string).  Python's `$` matches at the
end of the string and also just before a final newline, hence the second
branch. -/
def sufLen (s : List Char) : Option Nat :=
  match s with
  | '-' :: rest =>
    if rest ≠ [] ∧ rest.all nonspace then some (rest.length + 1)
    else if 2 ≤ rest.length ∧ rest.getLast? = some '\n' ∧ rest.dropLast.all nonspace then
      some rest.length
    else none
  | _ => none

/-- Fuel-indexed left-to-right scan of `re.sub(match, "", lexeme)` /
`re.findall(match, lexeme)` for the two non-anchored alternatives
`-\S+$` and `<\S+>` (tried in that order, as in the pattern): returns the
kept characters and the list of matched chunks.  The fuel only needs to be
at least the length of the list; every match consumes at least one
character. -/
def scanF : Nat → List Char → List Char × List (List Char)
  | _, [] => ([], [])
  | 0, l => (l, [])
  | f + 1, c :: rest =>
    match sufLen (c :: rest) with
    | some m =>
      let r := scanF f ((c :: rest).drop m)
      (r.1, (c :: rest).take m :: r.2)
    | none =>
      match infIdx (c :: rest) with
      | some j =>
        let r := scanF f (rest.drop (j + 1))
        (r.1, (c :: rest).take (j + 2) :: r.2)
      | none =>
        let r := scanF f rest
        (c :: r.1, r.2)

/-- Scan with adequate fuel. -/
def scan (s : List Char) : List Char × List (List Char) := scanF s.length s

/-- Full substitution/collection pass of the pattern `^\S+-|-\S+$|<\S+>` over
a string: the anchored alternative `^\S+-` is tried first at position 0 only,
then the scan handles the remaining alternatives.  Returns the root (matches
deleted) and the matched chunks in scan order. -/
def rmAffixesPair (s : List Char) : List Char × List (List Char) :=
  match preIdx s with
  | some k =>
    let r := scan (s.drop (k + 1))
    (r.1, s.take (k + 1) :: r.2)
  | none => scan s

/-- Embeds `rm_affixes(lexeme)` with `return_all=False` (the default): returns
only `root = sub(match, "", lexeme)`. -/
def rm_affixes (lexeme : String) : String :=
  String.mk (rmAffixesPair lexeme.data).1

/-- Embeds `rm_affixes(lexeme, return_all=True)`.  The source computes
`root` and `affixes = findall(match, lexeme)` but then executes
`return root, matches`, and `matches` is an undefined name, so the call
raises a NameError instead of returning the pair. -/
def rm_affixes_all (lexeme : String) : Except PyErr (String × List String) :=
  let _r := String.mk (rmAffixesPair lexeme.data).1
  let _a := (rmAffixesPair lexeme.data).2.map String.mk
  Except.error PyErr.nameError

example : rm_affixes "maN-tulak" = "tulak" := by decide
example : rm_affixes "t<um>ulak" = "tulak" := by decide
example : rm_affixes "tulak-en" = "en" := by decide
example : rm_affixes "x tulak-en" = "x tulak" := by decide
example : rm_affixes "abc" = "abc" := by decide
example : rm_affixes "-a\n-b" = "-a\n" := by decide
example : rm_affixes "-a\n" = "\n" := by decide
example : (rmAffixesPair "maN-tulak".data).2 = ["maN-".data] := by decide

/-- Fuel-indexed textbook Levenshtein edit distance, the semantics of the
`distance` function imported from the `Levenshtein` package.  Every recursive
call shrinks the total length of the two lists, so fuel
`s.length + t.length` is adequate. -/
def levF : Nat → List Char → List Char → Nat
  | _, [], t => t.length
  | _, s, [] => s.length
  | 0, _, _ => 0
  | f + 1, a :: s, b :: t =>
    if a = b then levF f s t
    else 1 + min (levF f s t) (min (levF f (a :: s) t) (levF f s (b :: t)))

/-- Levenshtein distance on character lists. -/
def levenshtein (s t : List Char) : Nat := levF (s.length + t.length) s t

/-- Embeds the imported `Levenshtein.distance` on strings. -/
def distance (a b : String) : Nat := levenshtein a.data b.data

example : distance "a" "ab" = 1 := by decide
example : distance "abc" "abd" = 1 := by decide
example : distance "kitten" "sitting" = 3 := by decide
example : distance "" "abc" = 3 := by decide

/-- One dictionary update of `groupby`: `indices[key].append(item)` when the
key is present, `indices[key] = [item]` (insertion at the end, Python dicts
preserve insertion order) when it is not.  The Python code stores indices into
`seq` and maps `seq[i]` back at the end; since indices are appended in scan
order, storing the items directly is equivalent. -/
def addToGroups {α κ : Type} [DecidableEq κ] :
    List (κ × List α) → κ → α → List (κ × List α)
  | [], k, x => [(k, [x])]
  | (k0, xs) :: rest, k, x =>
    if k0 = k then (k0, xs ++ [x]) :: rest
    else (k0, xs) :: addToGroups rest k x

/-- Embeds `groupby(seq, access_fn)` from the source: one pass over `seq`
accumulating an insertion-ordered dictionary from key to items, then the list
of value groups in insertion order. -/
def groupby {α κ : Type} [DecidableEq κ] (seq : List α) (f : α → κ) :
    List (List α) :=
  (seq.foldl (fun acc x => addToGroups acc (f x) x) []).map Prod.snd

/-- Keys of `seq` under `f` in order of first encounter.  This is the
specification-side description of the group emission order of `groupby`
("groups are emitted in the order their key was first encountered"). -/
def fkeys {α κ : Type} [DecidableEq κ] (f : α → κ) (seq : List α) : List κ :=
  seq.foldl (fun ks x => if f x ∈ ks then ks else ks ++ [f x]) []

example : groupby [1, 5, 2, 8, 4] (· % 3) = [[1, 4], [5, 2, 8]] := by decide
example : fkeys (· % 3) [1, 5, 2, 8, 4] = [1, 2] := by decide

/-- Fuel-indexed chunking of a list into rows of `k + 1` elements, mirroring
`for i in range(0, len(seq), size): yield seq[i:i + size]` with
`size = k + 1`. -/
def chunkF {α : Type} : Nat → Nat → List α → List (List α)
  | _, _, [] => []
  | 0, _, l => [l]
  | f + 1, k, a :: as => (a :: as.take k) :: chunkF f k (as.drop k)

/-- Embeds `chunk(seq, size)`, iterated: `range(0, len(seq), size)` raises
`ValueError: range() arg 3 must not be zero` when `size == 0` (even for an
empty `seq`), which surfaces when the generator returned by `matrix` is
iterated. -/
def chunk {α : Type} (seq : List α) (size : Nat) :
    Except PyErr (List (List α)) :=
  if size = 0 then Except.error PyErr.valueError
  else Except.ok (chunkF seq.length (size - 1) seq)

example : chunk [1, 2, 3, 4, 5, 6] 3 = Except.ok [[1, 2, 3], [4, 5, 6]] := by decide
example : chunk [1, 2, 3] 2 = Except.ok [[1, 2], [3]] := by decide
example : chunk ([] : List Nat) 0 = Except.error PyErr.valueError := by decide

/-- Embeds `itertools.product(l, repeat=2)`: all ordered pairs in row-major
order (first component outermost). -/
def product2 {α : Type} (l : List α) : List (α × α) :=
  l.flatMap fun a => l.map fun b => (a, b)

/-- Embeds one row of the input sheet as read by `csv.DictReader`: the loader
accesses the columns `ProtoForm`, `Reflex` and `GlottoCode`; a `Gloss` column
may be present but is never read by the loader. -/
structure Row where
  ProtoForm : String
  Reflex : String
  GlottoCode : String
  Gloss : Option String
deriving DecidableEq

/-- Embeds the `CognateSet` entity: protoform, reflex strings, parallel
glottocode strings, and an optional gloss. -/
structure CognateSet where
  protoform : String
  reflexes : List String
  glottocodes : List String
  gloss : Option String
deriving DecidableEq

/-- Embeds `CognateSet.__init__(protoform, reflexes, glottocodes, gloss,
affixes)`: when `affixes` is false (the default) every reflex is passed
through `rm_affixes`; when it is true the raw reflexes are stored. -/
def CognateSet.init (protoform : String) (reflexes glottocodes : List String)
    (gloss : Option String) (affixes : Bool) : CognateSet :=
  { protoform := protoform
    reflexes := if affixes then reflexes else reflexes.map rm_affixes
    glottocodes := glottocodes
    gloss := gloss }

/-- Embeds the `n_reflexes` property. -/
def CognateSet.n_reflexes (cs : CognateSet) : Nat := cs.reflexes.length

/-- Embeds `CognateSet.matrix(measure)`, with the lazy generator iterated:
all pairwise distances `measure(a, b)` over `product(reflexes, repeat=2)`,
chopped into rows of length `n_reflexes`. -/
def CognateSet.matrix {β : Type} (cs : CognateSet)
    (measure : String → String → β) : Except PyErr (List (List β)) :=
  let dists := (product2 cs.reflexes).map fun p => measure p.1 p.2
  chunk dists cs.n_reflexes

/-- Embeds the `mean_distance` property: flattens `self.matrix()` (which uses
the default Levenshtein `distance` measure — the property takes no measure
argument) and divides the sum of all entries by `n_reflexes`.  Iterating the
matrix generator with zero reflexes raises the ValueError from `chunk` before
the division is reached. -/
def CognateSet.mean_distance (cs : CognateSet) : Except PyErr ℚ := do
  let m ← cs.matrix fun a b => ((distance a b : Nat) : ℚ)
  pure (m.flatten.sum / (cs.n_reflexes : ℚ))

/-- One iteration of the loader's `for group in groupby(...)` loop body: when
`protolangs` is false (the default) drop the rows whose `GlottoCode` is empty
(Python truthiness of the string), then construct a `CognateSet` from the
first filtered row's protoform and the filtered rows' columns.  Accessing
`group[0]` of a group that became empty raises an IndexError. -/
def mkSet (protolangs affixes : Bool) (group0 : List Row) :
    Except PyErr CognateSet :=
  match (if protolangs then group0 else group0.filter fun r => r.GlottoCode ≠ "") with
  | [] => Except.error PyErr.indexError
  | g0 :: grest =>
    Except.ok (CognateSet.init g0.ProtoForm
      ((g0 :: grest).map fun r => r.Reflex)
      ((g0 :: grest).map fun r => r.GlottoCode)
      none affixes)

/-- Loader loop over the groups: each constructed set is appended to the
result; an exception raised for some group aborts the whole loop. -/
def loadLoop (protolangs affixes : Bool) :
    List (List Row) → Except PyErr (List CognateSet)
  | [] => Except.ok []
  | g :: gs =>
    match mkSet protolangs affixes g with
    | Except.error e => Except.error e
    | Except.ok cs =>
      match loadLoop protolangs affixes gs with
      | Except.error e => Except.error e
      | Except.ok rest => Except.ok (cs :: rest)

/-- Embeds `load_reflex_data(fname, protolangs, affixes)` on the parsed rows:
group rows by the `ProtoForm` column, then run the construction loop. -/
def load_reflex_data (rows : List Row) (protolangs : Bool) (affixes : Bool) :
    Except PyErr (List CognateSet) :=
  loadLoop protolangs affixes (groupby rows fun r => r.ProtoForm)

example :
    load_reflex_data
      [⟨"P", "tulak", "lang1", none⟩, ⟨"P", "tulak-en", "lang2", none⟩,
       ⟨"P", "maN-tulak", "", none⟩] false false =
    Except.ok [⟨"P", ["tulak", "en"], ["lang1", "lang2"], none⟩] := by decide

example :
    load_reflex_data [⟨"P1", "a", "", none⟩, ⟨"P2", "b", "l2", none⟩] false false =
    Except.error PyErr.indexError := by decide

example :
    (CognateSet.mk "P" ["a", "ab"] ["l1", "l2"] none).mean_distance =
    Except.ok 1 := by
  have d0 : distance "a" "a" = 0 := by decide
  have d1 : distance "a" "ab" = 1 := by decide
  have d2 : distance "ab" "a" = 1 := by decide
  have d3 : distance "ab" "ab" = 0 := by decide
  simp only [CognateSet.mean_distance, CognateSet.matrix, CognateSet.n_reflexes, chunk,
    chunkF, product2, bind, Except.bind, pure, Except.pure, List.flatMap_cons,
    List.flatMap_nil, List.map_cons, List.map_nil, List.append_nil, List.cons_append,
    List.length_cons, List.length_nil, d0, d1, d2, d3]
  norm_num [d0, d1, d2, d3]

example :
    (CognateSet.mk "P" [] [] none).mean_distance =
    Except.error PyErr.valueError := by
  simp [CognateSet.mean_distance, CognateSet.matrix, CognateSet.n_reflexes, chunk,
    chunkF, product2, bind, Except.bind]

/-! Lemmas about the loader loop. -/

theorem mkSet_error {p a : Bool} {g : List Row} {e : PyErr}
    (h : mkSet p a g = Except.error e) : e = PyErr.indexError := by
  unfold mkSet at h
  rcases hm : (if p then g else g.filter fun r => r.GlottoCode ≠ "") with _ | ⟨g0, grest⟩ <;>
    rw [hm] at h <;> simp_all

theorem mkSet_ok {p a : Bool} {g : List Row} {cs : CognateSet}
    (h : mkSet p a g = Except.ok cs) :
    ∃ g0 grest, (if p then g else g.filter fun r => r.GlottoCode ≠ "") = g0 :: grest ∧
      cs = CognateSet.init g0.ProtoForm
        ((g0 :: grest).map fun r => r.Reflex)
        ((g0 :: grest).map fun r => r.GlottoCode)
        none a := by
  unfold mkSet at h
  rcases hm : (if p then g else g.filter fun r => r.GlottoCode ≠ "") with _ | ⟨g0, grest⟩ <;>
    rw [hm] at h
  · simp_all
  · exact ⟨g0, grest, rfl, by simp_all⟩

theorem mkSet_empty {p a : Bool} {g : List Row}
    (h : (if p then g else g.filter fun r => r.GlottoCode ≠ "") = []) :
    mkSet p a g = Except.error PyErr.indexError := by
  unfold mkSet
  rw [h]

theorem loadLoop_ok_mem {p a : Bool} :
    ∀ {gs : List (List Row)} {out : List CognateSet},
      loadLoop p a gs = Except.ok out →
      ∀ cs ∈ out, ∃ g ∈ gs, mkSet p a g = Except.ok cs := by
  intro gs
  induction gs with
  | nil =>
    intro out h cs hcs
    unfold loadLoop at h
    simp only [Except.ok.injEq] at h
    subst h
    simp at hcs
  | cons g gs ih =>
    intro out h cs hcs
    unfold loadLoop at h
    rcases hg : mkSet p a g with e | cs0 <;> rw [hg] at h
    · simp at h
    · rcases hrest : loadLoop p a gs with e | rest <;> rw [hrest] at h
      · simp at h
      · simp only [Except.ok.injEq] at h
        subst h
        rcases List.mem_cons.mp hcs with heq | hmem
        · exact ⟨g, List.mem_cons_self .., by rw [hg, heq]⟩
        · rcases ih hrest cs hmem with ⟨g1, hg1, hok⟩
          exact ⟨g1, List.mem_cons_of_mem _ hg1, hok⟩

theorem loadLoop_error_of_mem {p a : Bool} :
    ∀ {gs : List (List Row)},
      (∃ g ∈ gs, mkSet p a g = Except.error PyErr.indexError) →
      loadLoop p a gs = Except.error PyErr.indexError := by
  intro gs
  induction gs with
  | nil => rintro ⟨g, hg, _⟩; simp at hg
  | cons g gs ih =>
    rintro ⟨g1, hg1, herr⟩
    unfold loadLoop
    rcases hg : mkSet p a g with e | cs0
    · rw [mkSet_error hg]
    · rcases List.mem_cons.mp hg1 with heq | hmem
      · subst heq; rw [hg] at herr; simp at herr
      · rw [ih ⟨g1, hmem, herr⟩]

theorem load_ok_shape {rows : List Row} {p a : Bool} {out : List CognateSet}
    (h : load_reflex_data rows p a = Except.ok out) :
    ∀ cs ∈ out, ∃ g ∈ groupby rows (fun r => r.ProtoForm), ∃ g0 grest,
      (if p then g else g.filter fun r => r.GlottoCode ≠ "") = g0 :: grest ∧
      cs = CognateSet.init g0.ProtoForm
        ((g0 :: grest).map fun r => r.Reflex)
        ((g0 :: grest).map fun r => r.GlottoCode)
        none a := by
  intro cs hcs
  rcases loadLoop_ok_mem h cs hcs with ⟨g, hg, hok⟩
  rcases mkSet_ok hok with ⟨g0, grest, hfil, hcseq⟩
  exact ⟨g, hg, g0, grest, hfil, hcseq⟩

/-- Claim C1: for every input row sequence, the loader constructs each
CognateSet with its reflexes passed through the affix stripper exactly when
affix stripping is selected, and with the raw reflex strings otherwise.  In
the source the stripping selector is the `affixes` keyword with inverted
polarity: the spec-level `strip_affixes = true` corresponds to
`affixes = false` (the default), under which `CognateSet.__init__` maps
`rm_affixes` over the group's reflexes; with `affixes = true` the raw strings
are stored. -/
theorem C1_strip_flag_controls_reflexes
    (rows : List Row) (p a : Bool) (out : List CognateSet)
    (h : load_reflex_data rows p a = Except.ok out) :
    ∀ cs ∈ out, ∃ g ∈ groupby rows (fun r => r.ProtoForm),
      (a = false → cs.reflexes =
        (((if p then g else g.filter fun r => r.GlottoCode ≠ "").map fun r => r.Reflex).map
          rm_affixes)) ∧
      (a = true → cs.reflexes =
        ((if p then g else g.filter fun r => r.GlottoCode ≠ "").map fun r => r.Reflex)) := by
  intro cs hcs
  rcases load_ok_shape h cs hcs with ⟨g, hg, g0, grest, hfil, hcseq⟩
  simp only [ne_eq, decide_not] at hfil
  refine ⟨g, hg, ?_, ?_⟩ <;> intro ha <;> subst ha <;> subst hcseq <;>
    simp [CognateSet.init, hfil]

/-- Witness for C1 at a concrete one-row dataset: with the default
(stripping) configuration the stored reflex list is the stripped one. -/
theorem C1_witness :
    ∃ g ∈ groupby [(⟨"P", "maN-tulak", "l1", none⟩ : Row)] (fun r => r.ProtoForm),
      ((false : Bool) = false → (CognateSet.mk "P" ["tulak"] ["l1"] none).reflexes =
        (((if (false : Bool) then g else g.filter fun r => r.GlottoCode ≠ "").map
          fun r => r.Reflex).map rm_affixes)) ∧
      ((false : Bool) = true → (CognateSet.mk "P" ["tulak"] ["l1"] none).reflexes =
        ((if (false : Bool) then g else g.filter fun r => r.GlottoCode ≠ "").map
          fun r => r.Reflex)) :=
  C1_strip_flag_controls_reflexes
    [⟨"P", "maN-tulak", "l1", none⟩] false false
    [CognateSet.mk "P" ["tulak"] ["l1"] none]
    (by decide) (CognateSet.mk "P" ["tulak"] ["l1"] none) (by simp)

/-- Counterexample to claim C2: a dataset whose protoform group consists
entirely of glottocode-less rows does not load to "zero CognateSets for that
protoform with the load succeeding for the rest"; the load aborts with an
IndexError, so not even the remaining well-formed group (`P2`) is returned. -/
theorem C2_empty_group_not_skipped :
    load_reflex_data
      [⟨"P1", "a", "", none⟩, ⟨"P2", "b", "l2", none⟩] false false =
      Except.error PyErr.indexError ∧
    (Except.error PyErr.indexError : Except PyErr (List CognateSet)) ≠
      Except.ok [CognateSet.mk "P2" ["b"] ["l2"] none] := by
  exact ⟨by decide, by decide⟩

/-- Claim C2 as amended: under the default inclusion policy, if some
protoform group consists entirely of rows with an empty glottocode, the load
fails with an IndexError (the loop reads `group[0]` of the emptied group);
no CognateSets are produced for any protoform. -/
theorem C2_empty_group_raises_indexError
    (rows : List Row) (a : Bool)
    (h : ∃ g ∈ groupby rows (fun r => r.ProtoForm),
      g.filter (fun r => r.GlottoCode ≠ "") = []) :
    load_reflex_data rows false a = Except.error PyErr.indexError := by
  rcases h with ⟨g, hg, hfil⟩
  exact loadLoop_error_of_mem ⟨g, hg, mkSet_empty (by simpa using hfil)⟩

/-- Witness for the amended C2 at a concrete dataset. -/
theorem C2_witness :
    load_reflex_data
      [⟨"Q1", "a", "", none⟩, ⟨"Q1", "b", "", none⟩, ⟨"Q2", "c", "l", none⟩]
      false false = Except.error PyErr.indexError :=
  C2_empty_group_raises_indexError _ false (by decide)

/-- Counterexample to claim C4: the loader does not take `gloss` from the
first row's gloss field; the constructed set's gloss is `none` even though
the first (and only) row carries the gloss "hand". -/
theorem C4_gloss_not_taken_from_row :
    load_reflex_data [⟨"P", "a", "l1", some "hand"⟩] false true =
      Except.ok [CognateSet.mk "P" ["a"] ["l1"] none] ∧
    (Except.ok [CognateSet.mk "P" ["a"] ["l1"] none] :
        Except PyErr (List CognateSet)) ≠
      Except.ok [CognateSet.mk "P" ["a"] ["l1"] (some "hand")] := by
  exact ⟨by decide, by decide⟩

/-- Claim C4 as amended: the loader never passes a gloss to the CognateSet
constructor, so every loaded set's gloss is `none`, whatever the rows'
gloss fields contain. -/
theorem C4_gloss_always_none
    (rows : List Row) (p a : Bool) (out : List CognateSet)
    (h : load_reflex_data rows p a = Except.ok out) :
    ∀ cs ∈ out, cs.gloss = none := by
  intro cs hcs
  rcases load_ok_shape h cs hcs with ⟨g, hg, g0, grest, hfil, hcseq⟩
  subst hcseq
  rfl

/-- Witness for the amended C4 at a concrete dataset with a gloss-bearing
row. -/
theorem C4_witness :
    (CognateSet.mk "P" ["a"] ["l1"] none).gloss = none :=
  C4_gloss_always_none [⟨"P", "a", "l1", some "hand"⟩] false true
    [CognateSet.mk "P" ["a"] ["l1"] none] (by decide)
    (CognateSet.mk "P" ["a"] ["l1"] none) (by simp)

/-- Claim C10: every CognateSet produced by the loader has as many reflexes
as glottocodes, the two lists being the parallel column projections of the
same filtered group (reflexes possibly passed through the affix stripper,
which preserves the list length). -/
theorem C10_reflexes_glottocodes_parallel
    (rows : List Row) (p a : Bool) (out : List CognateSet)
    (h : load_reflex_data rows p a = Except.ok out) :
    ∀ cs ∈ out, cs.reflexes.length = cs.glottocodes.length ∧
      ∃ g ∈ groupby rows (fun r => r.ProtoForm),
        cs.glottocodes =
          ((if p then g else g.filter fun r => r.GlottoCode ≠ "").map
            fun r => r.GlottoCode) ∧
        cs.reflexes =
          (if a then
            ((if p then g else g.filter fun r => r.GlottoCode ≠ "").map
              fun r => r.Reflex)
          else
            (((if p then g else g.filter fun r => r.GlottoCode ≠ "").map
              fun r => r.Reflex).map rm_affixes)) := by
  intro cs hcs
  rcases load_ok_shape h cs hcs with ⟨g, hg, g0, grest, hfil, hcseq⟩
  simp only [ne_eq, decide_not] at hfil
  subst hcseq
  constructor
  · cases a <;> simp [CognateSet.init]
  · exact ⟨g, hg, by simp [CognateSet.init, hfil], by cases a <;> simp [CognateSet.init, hfil]⟩

/-- Witness for C10 at a concrete two-row dataset. -/
theorem C10_witness :
    (CognateSet.mk "R" ["tulak", "en"] ["l1", "l2"] none).reflexes.length =
      (CognateSet.mk "R" ["tulak", "en"] ["l1", "l2"] none).glottocodes.length ∧
    ∃ g ∈ groupby [(⟨"R", "tulak", "l1", none⟩ : Row), ⟨"R", "tulak-en", "l2", none⟩]
        (fun r => r.ProtoForm),
      (CognateSet.mk "R" ["tulak", "en"] ["l1", "l2"] none).glottocodes =
        ((if (false : Bool) then g else g.filter fun r => r.GlottoCode ≠ "").map
          fun r => r.GlottoCode) ∧
      (CognateSet.mk "R" ["tulak", "en"] ["l1", "l2"] none).reflexes =
        (if (false : Bool) then
          ((if (false : Bool) then g else g.filter fun r => r.GlottoCode ≠ "").map
            fun r => r.Reflex)
        else
          (((if (false : Bool) then g else g.filter fun r => r.GlottoCode ≠ "").map
            fun r => r.Reflex).map rm_affixes)) :=
  C10_reflexes_glottocodes_parallel
    [⟨"R", "tulak", "l1", none⟩, ⟨"R", "tulak-en", "l2", none⟩] false false
    [CognateSet.mk "R" ["tulak", "en"] ["l1", "l2"] none]
    (by decide) (CognateSet.mk "R" ["tulak", "en"] ["l1", "l2"] none) (by simp)

/-! Lemmas about the distance matrix. -/

theorem chunkF_flatMap {α β : Type} (row : α → List β) (k : Nat)
    (hrow : ∀ a, (row a).length = k + 1) :
    ∀ (l : List α) (fuel : Nat), (l.flatMap row).length ≤ fuel →
      chunkF fuel k (l.flatMap row) = l.map row := by
  intro l
  induction l with
  | nil => intro fuel _; simp [chunkF]
  | cons a l ih =>
    intro fuel hfuel
    rw [List.flatMap_cons] at hfuel ⊢
    have hlen : (row a).length = k + 1 := hrow a
    rcases fuel with _ | f
    · exfalso
      have := List.length_append (row a) (l.flatMap row)
      omega
    · rcases hr : row a with _ | ⟨r0, rtail⟩
      · rw [hr] at hlen; simp at hlen
      · have htl : rtail.length = k := by
          rw [hr] at hlen; simpa using hlen
        have hf : (l.flatMap row).length ≤ f := by
          have := List.length_append (row a) (l.flatMap row)
          omega
        simp only [chunkF, List.append_eq]
        rw [List.take_left' htl, List.drop_left' htl, ih f hf, List.map_cons, ← hr]

theorem matrix_ok {β : Type} (cs : CognateSet) (measure : String → String → β)
    (h : 0 < cs.n_reflexes) :
    cs.matrix measure =
      Except.ok (cs.reflexes.map fun a => cs.reflexes.map fun b => measure a b) := by
  have hd : (product2 cs.reflexes).map (fun p => measure p.1 p.2) =
      cs.reflexes.flatMap fun a => cs.reflexes.map fun b => measure a b := by
    simp [product2, List.map_flatMap, List.map_map, Function.comp_def]
  have hn : cs.n_reflexes ≠ 0 := by omega
  simp only [CognateSet.matrix, chunk, hd, if_neg hn]
  congr 1
  apply chunkF_flatMap
  · intro a
    simp only [List.length_map]
    unfold CognateSet.n_reflexes at h ⊢
    omega
  · exact le_refl _

/-- Counterexample to claim C6: for a CognateSet with zero reflexes the
matrix is not a 0-by-0 structure; iterating it raises a ValueError (the
chunking step calls `range(0, 0, 0)`). -/
theorem C6_matrix_empty_set_errors :
    (CognateSet.mk "E" [] [] none).matrix (fun _ _ => (0 : Nat)) =
      Except.error PyErr.valueError ∧
    (Except.error PyErr.valueError : Except PyErr (List (List Nat))) ≠
      Except.ok [] := by
  exact ⟨by decide, by decide⟩

/-- Claim C6 as amended (restricted to sets with at least one reflex): the
distance matrix is the n-by-n grid whose entry at row i, column j is
`measure(reflexes[i], reflexes[j])`, diagonal included, with `measure(a,b)`
and `measure(b,a)` evaluated separately. -/
theorem C6_matrix_entries {β : Type} (cs : CognateSet)
    (measure : String → String → β) (h : 0 < cs.n_reflexes) :
    cs.matrix measure =
      Except.ok (cs.reflexes.map fun a => cs.reflexes.map fun b => measure a b) ∧
    (cs.reflexes.map fun a => cs.reflexes.map fun b => measure a b).length =
      cs.n_reflexes ∧
    ∀ row ∈ (cs.reflexes.map fun a => cs.reflexes.map fun b => measure a b),
      row.length = cs.n_reflexes := by
  refine ⟨matrix_ok cs measure h, by simp [CognateSet.n_reflexes], ?_⟩
  intro row hrow
  rcases List.mem_map.mp hrow with ⟨a, _, rfl⟩
  simp [CognateSet.n_reflexes]

/-- Witness for the amended C6 at a concrete two-reflex set with an
asymmetric measure: entry (0,1) is the length of "ab", entry (1,0) the
length of "a". -/
theorem C6_witness :
    (CognateSet.mk "P" ["a", "ab"] ["l1", "l2"] none).matrix
      (fun _ b => b.length) = Except.ok [[1, 2], [1, 2]] := by
  have h := (C6_matrix_entries (CognateSet.mk "P" ["a", "ab"] ["l1", "l2"] none)
    (fun _ b => b.length) (by decide)).1
  rw [h]
  decide

/-- Counterexample to claim C5: `mean_distance` is a property that takes no
measure argument (it always uses the Levenshtein default), so for a measure
other than Levenshtein its value differs from "sum of the matrix entries for
that measure divided by n": at a one-reflex set with the constant-5 measure,
the matrix sums to 5 but `mean_distance` is 0. -/
theorem C5_mean_distance_ignores_measure :
    (CognateSet.mk "P" ["a"] ["l"] none).matrix (fun _ _ => (5 : ℚ)) =
      Except.ok [[5]] ∧
    (CognateSet.mk "P" ["a"] ["l"] none).mean_distance = Except.ok 0 ∧
    (Except.ok (0 : ℚ) : Except PyErr ℚ) ≠
      Except.ok (([[(5 : ℚ)]].flatten.sum) /
        ((CognateSet.mk "P" ["a"] ["l"] none).n_reflexes : ℚ)) := by
  refine ⟨?_, ?_, ?_⟩
  · simp [CognateSet.matrix, chunk, chunkF, product2, CognateSet.n_reflexes]
  · have d0 : distance "a" "a" = 0 := by decide
    simp [CognateSet.mean_distance, CognateSet.matrix, chunk, chunkF, product2,
      CognateSet.n_reflexes, bind, Except.bind, pure, Except.pure, d0]
  · simp [CognateSet.n_reflexes]

/-- Claim C5 as amended: `mean_distance` takes no measure argument and always
uses the Levenshtein distance; with that measure it equals the sum of all
n-squared matrix entries (diagonal included) divided by n, and the concrete
values of the claim hold: ["a","a","a"] gives 0 and ["a","ab"] gives
(0+1+1+0)/2 = 1. -/
theorem C5_mean_distance_sum_div_n :
    (∀ cs : CognateSet, 0 < cs.n_reflexes →
      cs.mean_distance = Except.ok
        ((cs.reflexes.map fun a => cs.reflexes.map fun b =>
            ((distance a b : Nat) : ℚ)).flatten.sum / (cs.n_reflexes : ℚ))) ∧
    (CognateSet.mk "P" ["a", "a", "a"] ["l1", "l2", "l3"] none).mean_distance =
      Except.ok 0 ∧
    (CognateSet.mk "P" ["a", "ab"] ["l1", "l2"] none).mean_distance =
      Except.ok 1 := by
  refine ⟨?_, ?_, ?_⟩
  · intro cs h
    rw [CognateSet.mean_distance, matrix_ok cs _ h]
    rfl
  · have d0 : distance "a" "a" = 0 := by decide
    simp [CognateSet.mean_distance, CognateSet.matrix, chunk, chunkF, product2,
      CognateSet.n_reflexes, bind, Except.bind, pure, Except.pure, d0]
  · have d0 : distance "a" "a" = 0 := by decide
    have d1 : distance "a" "ab" = 1 := by decide
    have d2 : distance "ab" "a" = 1 := by decide
    have d3 : distance "ab" "ab" = 0 := by decide
    simp only [CognateSet.mean_distance, CognateSet.matrix, CognateSet.n_reflexes, chunk,
      chunkF, product2, bind, Except.bind, pure, Except.pure, List.flatMap_cons,
      List.flatMap_nil, List.map_cons, List.map_nil, List.append_nil, List.cons_append,
      List.length_cons, List.length_nil, d0, d1, d2, d3]
    norm_num [d0, d1, d2, d3]

/-- Witness for the amended C5: the general sum-over-n formula applied to a
concrete two-reflex set. -/
theorem C5_witness :
    (CognateSet.mk "W" ["ab", "b"] ["l1", "l2"] none).mean_distance =
      Except.ok
        (((CognateSet.mk "W" ["ab", "b"] ["l1", "l2"] none).reflexes.map
            fun a => (CognateSet.mk "W" ["ab", "b"] ["l1", "l2"] none).reflexes.map
              fun b => ((distance a b : Nat) : ℚ)).flatten.sum /
          ((CognateSet.mk "W" ["ab", "b"] ["l1", "l2"] none).n_reflexes : ℚ)) :=
  C5_mean_distance_sum_div_n.1
    (CognateSet.mk "W" ["ab", "b"] ["l1", "l2"] none) (by decide)

/-- Counterexample to claim C7: invoking `mean_distance` on a zero-reflex set
does fail, but with a ValueError raised by `range(0, 0, 0)` in the row
chunking, not with a DivideByZero-class error. -/
theorem C7_empty_mean_error_class :
    (CognateSet.mk "E" [] [] none).mean_distance = Except.error PyErr.valueError ∧
    PyErr.valueError ≠ PyErr.zeroDivisionError := by
  refine ⟨?_, by decide⟩
  simp [CognateSet.mean_distance, CognateSet.matrix, CognateSet.n_reflexes, chunk,
    chunkF, product2, bind, Except.bind]

/-- Claim C7 as amended: on a zero-reflex set, `mean_distance` fails
explicitly with a ValueError (the chunking step's `range` call rejects a zero
step before the division is reached) rather than producing NaN or silently
returning zero. -/
theorem C7_empty_mean_valueError (cs : CognateSet) (h : cs.n_reflexes = 0) :
    cs.mean_distance = Except.error PyErr.valueError := by
  have hr : cs.reflexes = [] := List.length_eq_zero.mp h
  simp [CognateSet.mean_distance, CognateSet.matrix, chunk, chunkF, product2, h,
    hr, bind, Except.bind]

/-- Witness for the amended C7 at a concrete empty set. -/
theorem C7_witness :
    (CognateSet.mk "E2" [] [] none).mean_distance = Except.error PyErr.valueError :=
  C7_empty_mean_valueError (CognateSet.mk "E2" [] [] none) (by decide)

/-- Claim C3 records a code bug: invoking the affix stripper with reporting
enabled (`return_all=True`) never returns the pair `(root, removed)`; the
`return root, matches` statement references the undefined name `matches`
(the computed list is bound to `affixes`), so every such call raises a
NameError.  Evaluating the embedding at the marker-free input "abc" shows
the failure, even though the root and match list the claim expects,
`("abc", [])`, are exactly what the substitution pass computes. -/
theorem C3_return_all_raises_nameError :
    rm_affixes_all "abc" = Except.error PyErr.nameError ∧
    rmAffixesPair "abc".data = ("abc".data, []) := by
  exact ⟨rfl, by decide⟩

/-! Lemmas about the grouping utility. -/

section Groupby

variable {α κ : Type} [DecidableEq κ] (f : α → κ)

theorem fkeys_aux_mem (p : List α) :
    ∀ (ks : List κ) (k : κ),
      (k ∈ p.foldl (fun ks x => if f x ∈ ks then ks else ks ++ [f x]) ks) ↔
        (k ∈ ks ∨ ∃ a ∈ p, f a = k) := by
  induction p with
  | nil => intro ks k; simp
  | cons x p ih =>
    intro ks k
    rw [List.foldl_cons, ih]
    by_cases h : f x ∈ ks
    · rw [if_pos h]
      constructor
      · rintro (hk | ⟨a, ha, hfa⟩)
        · exact Or.inl hk
        · exact Or.inr ⟨a, List.mem_cons_of_mem _ ha, hfa⟩
      · rintro (hk | ⟨a, ha, hfa⟩)
        · exact Or.inl hk
        · rcases List.mem_cons.mp ha with rfl | ha2
          · exact Or.inl (hfa ▸ h)
          · exact Or.inr ⟨a, ha2, hfa⟩
    · rw [if_neg h]
      constructor
      · rintro (hk | ⟨a, ha, hfa⟩)
        · rcases List.mem_append.mp hk with hk1 | hk2
          · exact Or.inl hk1
          · exact Or.inr ⟨x, List.mem_cons_self .., (List.mem_singleton.mp hk2).symm⟩
        · exact Or.inr ⟨a, List.mem_cons_of_mem _ ha, hfa⟩
      · rintro (hk | ⟨a, ha, hfa⟩)
        · exact Or.inl (List.mem_append.mpr (Or.inl hk))
        · rcases List.mem_cons.mp ha with rfl | ha2
          · exact Or.inl (List.mem_append.mpr (Or.inr (by simp [hfa.symm])))
          · exact Or.inr ⟨a, ha2, hfa⟩

theorem fkeys_aux_nodup (p : List α) :
    ∀ ks : List κ, ks.Nodup →
      (p.foldl (fun ks x => if f x ∈ ks then ks else ks ++ [f x]) ks).Nodup := by
  induction p with
  | nil => intro ks h; simpa using h
  | cons x p ih =>
    intro ks h
    rw [List.foldl_cons]
    apply ih
    by_cases hm : f x ∈ ks
    · rwa [if_pos hm]
    · rw [if_neg hm]
      rw [List.nodup_append]
      exact ⟨h, List.nodup_singleton _, fun b hb hbx => hm ((List.mem_singleton.mp hbx) ▸ hb)⟩

theorem fkeys_mem (p : List α) (k : κ) :
    k ∈ fkeys f p ↔ ∃ a ∈ p, f a = k := by
  unfold fkeys
  rw [fkeys_aux_mem]
  simp

theorem fkeys_nodup (p : List α) : (fkeys f p).Nodup :=
  fkeys_aux_nodup f p [] List.nodup_nil

theorem addToGroups_notmem :
    ∀ (L : List (κ × List α)) (k : κ) (x : α),
      k ∉ L.map Prod.fst → addToGroups L k x = L ++ [(k, [x])] := by
  intro L
  induction L with
  | nil => intro k x _; rfl
  | cons e L ih =>
    intro k x h
    rcases e with ⟨k0, xs⟩
    simp only [List.map_cons, List.mem_cons] at h
    push_neg at h
    simp only [addToGroups, if_neg (fun hh : k0 = k => h.1 hh.symm), List.cons_append]
    rw [ih k x h.2]

theorem addToGroups_mem :
    ∀ (L1 L2 : List (κ × List α)) (k : κ) (xs : List α) (x : α),
      k ∉ L1.map Prod.fst →
      addToGroups (L1 ++ (k, xs) :: L2) k x = L1 ++ (k, xs ++ [x]) :: L2 := by
  intro L1
  induction L1 with
  | nil =>
    intro L2 k xs x _
    simp [addToGroups]
  | cons e L1 ih =>
    intro L2 k xs x h
    rcases e with ⟨k0, ys⟩
    simp only [List.map_cons, List.mem_cons] at h
    push_neg at h
    simp only [List.cons_append, addToGroups, List.append_eq,
      if_neg (fun hh : k0 = k => h.1 hh.symm)]
    rw [ih L2 k xs x h.2]

theorem fkeys_append_single (pref : List α) (x : α) :
    fkeys f (pref ++ [x]) =
      if f x ∈ fkeys f pref then fkeys f pref else fkeys f pref ++ [f x] := by
  unfold fkeys
  rw [List.foldl_append, List.foldl_cons, List.foldl_nil]

theorem filter_append_single (pref : List α) (x : α) (k : κ) :
    ((pref ++ [x]).filter fun a => f a = k) =
      (pref.filter fun a => f a = k) ++ if f x = k then [x] else [] := by
  rw [List.filter_append]
  congr 1
  by_cases hk : f x = k <;> simp [hk]

theorem addToGroups_canon (pref : List α) (x : α) :
    addToGroups ((fkeys f pref).map fun k => (k, pref.filter fun a => f a = k))
        (f x) x =
      (fkeys f (pref ++ [x])).map fun k => (k, (pref ++ [x]).filter fun a => f a = k) := by
  by_cases hmem : f x ∈ fkeys f pref
  · obtain ⟨K1, K2, hK⟩ := List.append_of_mem hmem
    have hnd : (fkeys f pref).Nodup := fkeys_nodup f pref
    rw [hK] at hnd
    rcases List.nodup_append.mp hnd with ⟨hnd1, hnd2, hdisj⟩
    have h1 : f x ∉ K1 := fun hin => hdisj hin (List.mem_cons_self ..)
    have h2 : f x ∉ K2 := (List.nodup_cons.mp hnd2).1
    have hfst : (K1.map fun k => (k, pref.filter fun a => f a = k)).map Prod.fst = K1 := by
      simp [List.map_map, Function.comp_def]
    rw [fkeys_append_single, if_pos hmem, hK]
    rw [List.map_append, List.map_cons, List.map_append, List.map_cons]
    rw [addToGroups_mem _ _ _ _ _ (by rw [hfst]; exact h1)]
    congr 1
    · apply List.map_congr_left
      intro k hk1
      have hkne : f x ≠ k := fun hh => h1 (hh ▸ hk1)
      rw [filter_append_single, if_neg hkne, List.append_nil]
    · congr 1
      · rw [filter_append_single, if_pos rfl]
      · apply List.map_congr_left
        intro k hk2
        have hkne : f x ≠ k := fun hh => h2 (hh ▸ hk2)
        rw [filter_append_single, if_neg hkne, List.append_nil]
  · rw [fkeys_append_single, if_neg hmem]
    rw [addToGroups_notmem _ _ _ (by
      simp only [List.map_map]
      simpa [Function.comp_def] using hmem)]
    rw [List.map_append, List.map_cons, List.map_nil]
    congr 1
    · apply List.map_congr_left
      intro k hk1
      have hkne : f x ≠ k := fun hh => hmem (hh ▸ hk1)
      rw [filter_append_single, if_neg hkne, List.append_nil]
    · have hempty : (pref.filter fun a => f a = f x) = [] := by
        rw [List.filter_eq_nil_iff]
        intro a ha
        simp only [decide_eq_true_eq]
        exact fun hfa => hmem ((fkeys_mem f pref (f x)).mpr ⟨a, ha, hfa⟩)
      rw [filter_append_single, if_pos rfl, hempty, List.nil_append]

theorem groupby_fold_inv (p : List α) :
    ∀ pref : List α,
      p.foldl (fun acc x => addToGroups acc (f x) x)
          ((fkeys f pref).map fun k => (k, pref.filter fun a => f a = k)) =
        (fkeys f (pref ++ p)).map fun k => (k, (pref ++ p).filter fun a => f a = k) := by
  induction p with
  | nil => intro pref; simp
  | cons x p ih =>
    intro pref
    rw [List.foldl_cons, addToGroups_canon f pref x, ih (pref ++ [x])]
    rw [List.append_assoc, List.singleton_append]

theorem groupby_eq_filter (seq : List α) :
    groupby seq f = (fkeys f seq).map fun k => seq.filter fun a => f a = k := by
  have h1 : seq.foldl (fun acc x => addToGroups acc (f x) x) [] =
      (fkeys f seq).map fun k => (k, seq.filter fun a => f a = k) := by
    simpa using groupby_fold_inv f seq []
  unfold groupby
  rw [h1, List.map_map]
  rfl

theorem sum_map_add {γ : Type} (l : List γ) (A B : γ → Nat) :
    (l.map fun k => A k + B k).sum = (l.map A).sum + (l.map B).sum := by
  induction l with
  | nil => rfl
  | cons k l ih =>
    simp only [List.map_cons, List.sum_cons, ih]
    omega

theorem sum_ite_zero (c : κ) :
    ∀ l : List κ, c ∉ l → (l.map fun k => if c = k then (1 : Nat) else 0).sum = 0 := by
  intro l
  induction l with
  | nil => intro _; rfl
  | cons k l ih =>
    intro h
    simp only [List.mem_cons] at h
    push_neg at h
    simp [List.map_cons, if_neg h.1, ih h.2]

theorem sum_ite_one (c : κ) :
    ∀ l : List κ, l.Nodup → c ∈ l →
      (l.map fun k => if c = k then (1 : Nat) else 0).sum = 1 := by
  intro l
  induction l with
  | nil => intro _ h; simp at h
  | cons k l ih =>
    intro hnd hm
    rcases List.nodup_cons.mp hnd with ⟨hk, hnd2⟩
    rcases List.mem_cons.mp hm with heq | hmem
    · subst heq
      simp [List.map_cons, sum_ite_zero c l hk]
    · have hne : c ≠ k := fun hh => hk (hh ▸ hmem)
      simp [List.map_cons, if_neg hne, ih hnd2 hmem]

theorem sum_filter_lengths :
    ∀ (seq : List α) (ks : List κ), ks.Nodup → (∀ a ∈ seq, f a ∈ ks) →
      (ks.map fun k => (seq.filter fun a => f a = k).length).sum = seq.length := by
  intro seq
  induction seq with
  | nil =>
    intro ks _ _
    apply List.sum_eq_zero
    intro x hx
    rcases List.mem_map.mp hx with ⟨k, _, rfl⟩
    simp
  | cons a seq ih =>
    intro ks hnd hcov
    have hstep : ∀ k, ((a :: seq).filter fun b => f b = k).length =
        ((seq.filter fun b => f b = k).length + if f a = k then 1 else 0) := by
      intro k
      by_cases hk : f a = k <;> simp [List.filter_cons, hk]
    rw [List.map_congr_left fun k _ => hstep k, sum_map_add,
      ih ks hnd fun b hb => hcov b (List.mem_cons_of_mem _ hb),
      sum_ite_one (f a) ks hnd (hcov a (List.mem_cons_self ..))]
    simp

end Groupby

/-- Claim C9: `groupby` emits its groups keyed in order of first encounter
(`fkeys`), each group being the in-order sublist of the input with that key
(hence stable within groups), and the group lengths sum to the input
length. -/
theorem C9_groupby_order_and_count {α κ : Type} [DecidableEq κ]
    (seq : List α) (f : α → κ) :
    groupby seq f = ((fkeys f seq).map fun k => seq.filter fun a => f a = k) ∧
    ((groupby seq f).map List.length).sum = seq.length := by
  refine ⟨groupby_eq_filter f seq, ?_⟩
  rw [groupby_eq_filter f seq, List.map_map]
  exact sum_filter_lengths f seq (fkeys f seq) (fkeys_nodup f seq)
    fun a ha => (fkeys_mem f seq (f a)).mpr ⟨a, ha, rfl⟩

/-! Lemmas about the affix stripper, towards the idempotence analysis. -/

theorem lastHit_getElem {ch : Char} :
    ∀ {l : List Char} {j : Nat}, lastHit ch l = some j → l[j]? = some ch := by
  intro l
  induction l with
  | nil => intro j h; simp [lastHit] at h
  | cons c l ih =>
    intro j h
    unfold lastHit at h
    rcases hl : lastHit ch l with _ | j0 <;> rw [hl] at h
    · by_cases hc : c = ch
      · rw [if_pos hc] at h
        cases h
        simpa using hc
      · rw [if_neg hc] at h
        cases h
    · cases h
      simpa using ih hl

theorem lastHit_exists {ch : Char} :
    ∀ {l : List Char} (i : Nat), l[i]? = some ch → ∃ j, lastHit ch l = some j := by
  intro l
  induction l with
  | nil => intro i h; simp at h
  | cons c l ih =>
    intro i h
    unfold lastHit
    rcases hl : lastHit ch l with _ | j0
    · rcases i with _ | i
      · simp only [List.getElem?_cons_zero, Option.some.injEq] at h
        simp [h]
      · simp only [List.getElem?_cons_succ] at h
        rcases ih i h with ⟨j, hj⟩
        rw [hj] at hl
        cases hl
    · exact ⟨j0 + 1, rfl⟩

theorem lastHit_ge {ch : Char} :
    ∀ {l : List Char} {j : Nat}, lastHit ch l = some j →
      ∀ i, l[i]? = some ch → i ≤ j := by
  intro l
  induction l with
  | nil => intro j h; simp [lastHit] at h
  | cons c l ih =>
    intro j h i hi
    unfold lastHit at h
    rcases hl : lastHit ch l with _ | j0 <;> rw [hl] at h
    · rcases i with _ | i
      · omega
      · exfalso
        simp only [List.getElem?_cons_succ] at hi
        rcases lastHit_exists i hi with ⟨j2, hj2⟩
        rw [hj2] at hl
        cases hl
    · cases h
      rcases i with _ | i
      · omega
      · simp only [List.getElem?_cons_succ] at hi
        have := ih hl i hi
        omega

theorem lastHit_none {ch : Char} :
    ∀ {l : List Char}, lastHit ch l = none → ∀ i : Nat, l[i]? ≠ some ch := by
  intro l
  induction l with
  | nil => intro _ i; simp
  | cons c l ih =>
    intro h i
    unfold lastHit at h
    rcases hl : lastHit ch l with _ | j0 <;> rw [hl] at h
    · by_cases hc : c = ch
      · rw [if_pos hc] at h; cases h
      · rcases i with _ | i
        · simpa using hc
        · simpa using ih hl i
    · cases h

theorem takeWhile_getElem {p : Char → Bool} :
    ∀ {l : List Char} {q : Nat} {c : Char}, (l.take q).all p = true →
      l[q]? = some c → p c = true →
      q < (l.takeWhile p).length ∧ (l.takeWhile p)[q]? = some c := by
  intro l
  induction l with
  | nil => intro q c _ hq _; simp at hq
  | cons a l ih =>
    intro q c htake hq hpc
    rcases q with _ | q
    · simp only [List.getElem?_cons_zero, Option.some.injEq] at hq
      subst hq
      rw [List.takeWhile_cons, if_pos hpc]
      simp
    · rw [List.take_succ_cons] at htake
      simp only [List.all_cons, Bool.and_eq_true] at htake
      simp only [List.getElem?_cons_succ] at hq
      rcases ih htake.2 hq hpc with ⟨h1, h2⟩
      rw [List.takeWhile_cons, if_pos htake.1]
      constructor
      · simpa using Nat.succ_lt_succ h1
      · simpa using h2

theorem takeWhile_getElem_rev {p : Char → Bool} :
    ∀ {l : List Char} {j : Nat}, j < (l.takeWhile p).length →
      (l.takeWhile p)[j]? = l[j]? ∧ (l.take j).all p = true := by
  intro l
  induction l with
  | nil => intro j h; simp [List.takeWhile] at h
  | cons a l ih =>
    intro j h
    rw [List.takeWhile_cons] at h ⊢
    by_cases hpa : p a = true
    · rw [if_pos hpa] at h ⊢
      rcases j with _ | j
      · simp
      · simp only [List.length_cons, Nat.succ_lt_succ_iff] at h
        rcases ih h with ⟨h1, h2⟩
        refine ⟨by simpa using h1, ?_⟩
        rw [List.take_succ_cons]
        simp [hpa, h2]
    · rw [if_neg hpa] at h
      simp at h

theorem gateIdx_eq_some {o : Option Nat} {k : Nat} (h : gateIdx o = some k) :
    o = some k ∧ 1 ≤ k := by
  cases o with
  | none => simp [gateIdx] at h
  | some j =>
    simp only [gateIdx] at h
    by_cases h1 : 1 ≤ j
    · rw [if_pos h1] at h
      cases h
      exact ⟨rfl, h1⟩
    · rw [if_neg h1] at h
      cases h

theorem gateIdx_none_of {o : Option Nat} {j : Nat} (h : gateIdx o = none)
    (ho : o = some j) : ¬1 ≤ j := by
  subst ho
  intro h1
  simp only [gateIdx, if_pos h1] at h
  exact Option.noConfusion h

/-- A hit at a position with a non-whitespace-prefixed run transfers to the
takeWhile run, so the greedy matcher sees it. -/
theorem hit_in_run {s : List Char} {q : Nat} {c : Char} (hc : nonspace c = true)
    (htk : (s.take q).all nonspace = true) (hq : s[q]? = some c) :
    (s.takeWhile nonspace)[q]? = some c :=
  (takeWhile_getElem htk hq hc).2

theorem preIdx_spec {s : List Char} {k : Nat} (h : preIdx s = some k) :
    1 ≤ k ∧ (s.take k).all nonspace = true ∧ s[k]? = some '-' := by
  unfold preIdx at h
  rcases gateIdx_eq_some h with ⟨hlh, h1⟩
  have hget := lastHit_getElem hlh
  have hlt : k < (s.takeWhile nonspace).length := by
    rcases List.getElem?_eq_some.mp hget with ⟨hl, _⟩
    exact hl
  rcases takeWhile_getElem_rev hlt with ⟨hgs, htk⟩
  exact ⟨h1, htk, by rw [← hgs]; exact hget⟩

theorem preIdx_max {s : List Char} {k : Nat} (h : preIdx s = some k) :
    ∀ q : Nat, (s.take q).all nonspace = true → s[q]? = some '-' → q ≤ k := by
  intro q htk hq
  unfold preIdx at h
  rcases gateIdx_eq_some h with ⟨hlh, _⟩
  exact lastHit_ge hlh q (hit_in_run (by decide) htk hq)

theorem preIdx_none {s : List Char} (h : preIdx s = none) :
    ∀ q : Nat, 1 ≤ q → (s.take q).all nonspace = true → s[q]? ≠ some '-' := by
  intro q hq1 htk hq
  unfold preIdx at h
  have hq2 := hit_in_run (by decide) htk hq
  rcases hlh : lastHit '-' (s.takeWhile nonspace) with _ | k0
  · exact lastHit_none hlh q hq2
  · have hk0 := lastHit_ge hlh q hq2
    exact gateIdx_none_of h hlh (by omega)

theorem infIdx_cons_lt (rest : List Char) :
    infIdx ('<' :: rest) = gateIdx (lastHit '>' (rest.takeWhile nonspace)) := by
  simp [infIdx]

theorem infIdx_spec {s : List Char} {j : Nat} (h : infIdx s = some j) :
    ∃ rest, s = '<' :: rest ∧ 1 ≤ j ∧ (rest.take j).all nonspace = true ∧
      rest[j]? = some '>' := by
  rcases s with _ | ⟨c, rest⟩
  · cases h
  · by_cases hc : c = '<'
    · subst hc
      rw [infIdx_cons_lt] at h
      rcases gateIdx_eq_some h with ⟨hlh, h1⟩
      have hget := lastHit_getElem hlh
      have hlt : j < (rest.takeWhile nonspace).length := by
        rcases List.getElem?_eq_some.mp hget with ⟨hl, _⟩
        exact hl
      rcases takeWhile_getElem_rev hlt with ⟨hgs, htk⟩
      exact ⟨rest, rfl, h1, htk, by rw [← hgs]; exact hget⟩
    · simp only [infIdx, if_neg hc] at h
      exact Option.noConfusion h

theorem infIdx_none_no_hit {rest : List Char} (h : infIdx ('<' :: rest) = none) :
    ∀ q : Nat, 1 ≤ q → (rest.take q).all nonspace = true → rest[q]? ≠ some '>' := by
  intro q hq1 htk hq
  rw [infIdx_cons_lt] at h
  have hq2 := hit_in_run (by decide) htk hq
  rcases hlh : lastHit '>' (rest.takeWhile nonspace) with _ | j0
  · exact lastHit_none hlh q hq2
  · have hj0 := lastHit_ge hlh q hq2
    exact gateIdx_none_of h hlh (by omega)

theorem sufLen_full {rest : List Char} (h1 : rest ≠ []) (h2 : rest.all nonspace = true) :
    sufLen ('-' :: rest) = some (rest.length + 1) := by
  simp only [sufLen]
  rw [if_pos ⟨h1, h2⟩]

theorem sufLen_spec {s : List Char} {m : Nat} (h : sufLen s = some m) :
    2 ≤ m ∧ (s.take m).all nonspace = true ∧
      ((s.drop m = [] ∧
          ∃ rest, s = '-' :: rest ∧ rest ≠ [] ∧ rest.all nonspace = true ∧
            m = rest.length + 1) ∨
        (s.drop m = ['\n'] ∧ '\n' ∈ s)) := by
  rcases s with _ | ⟨c, rest⟩
  · simp [sufLen] at h
  · by_cases hc : c = '-'
    · subst hc
      simp only [sufLen] at h
      by_cases hfull : rest ≠ [] ∧ rest.all nonspace = true
      · rw [if_pos hfull] at h
        cases h
        have hlen : 1 ≤ rest.length := by
          rcases rest with _ | ⟨r, rs⟩
          · exact absurd rfl hfull.1
          · simp
        refine ⟨by omega, ?_, Or.inl ⟨?_, rest, rfl, hfull.1, hfull.2, rfl⟩⟩
        · have : ('-' :: rest).take (rest.length + 1) = '-' :: rest := by simp
          rw [this]
          simp only [List.all_cons, Bool.and_eq_true]
          exact ⟨by decide, hfull.2⟩
        · have : ('-' :: rest).drop (rest.length + 1) = [] := by simp
          exact this
      · rw [if_neg hfull] at h
        by_cases hnl : 2 ≤ rest.length ∧ rest.getLast? = some '\n' ∧
            rest.dropLast.all nonspace = true
        · rw [if_pos hnl] at h
          cases h
          obtain ⟨hlen2, hlast, hdl⟩ := hnl
          have hne : rest ≠ [] := by
            intro he
            rw [he] at hlen2
            simp at hlen2
          have hsplit : rest.dropLast ++ [rest.getLast hne] = rest :=
            List.dropLast_append_getLast hne
          have hgl : rest.getLast hne = '\n' := by
            have := List.getLast?_eq_getLast rest hne
            rw [this] at hlast
            exact (Option.some.injEq ..).mp hlast
          have hdll : rest.dropLast.length = rest.length - 1 := by
            simp [List.length_dropLast]
          have hm1 : rest.length = (rest.length - 1) + 1 := by omega
          refine ⟨by omega, ?_, Or.inr ⟨?_, ?_⟩⟩
          · rw [hm1, List.take_succ_cons]
            simp only [List.all_cons, Bool.and_eq_true]
            refine ⟨by decide, ?_⟩
            have : rest.take (rest.length - 1) = rest.dropLast := by
              rw [List.dropLast_eq_take]
            rw [this]
            exact hdl
          · rw [hm1, List.drop_succ_cons]
            rw [← hsplit, hgl]
            exact List.drop_left' (by simp)
          · rw [← hsplit, hgl]
            simp
        · rw [if_neg hnl] at h
          exact Option.noConfusion h
    · rw [show sufLen (c :: rest) = none from by simp [sufLen, hc]] at h
      exact Option.noConfusion h

theorem infChunk_nonspace {c : Char} {rest : List Char} {j : Nat}
    (h : infIdx (c :: rest) = some j) :
    ((c :: rest).take (j + 2)).all nonspace = true := by
  rcases infIdx_spec h with ⟨rest2, heq, h1, htk, hget⟩
  cases heq
  rw [List.take_succ_cons]
  simp only [List.all_cons, Bool.and_eq_true]
  refine ⟨by decide, ?_⟩
  rw [List.take_succ, hget]
  have hgt : nonspace '>' = true := by decide
  simp [List.all_append, htk, hgt]

theorem preChunk_nonspace {s : List Char} {k : Nat} (h : preIdx s = some k) :
    (s.take (k + 1)).all nonspace = true := by
  rcases preIdx_spec h with ⟨h1, htk, hget⟩
  rw [List.take_succ, hget]
  have hd : nonspace '-' = true := by decide
  simp [List.all_append, htk, hd]

theorem scanF_nil (f : Nat) : scanF f [] = ([], []) := by
  cases f <;> rfl

theorem scanF_suf {f : Nat} {c : Char} {rest : List Char} {m : Nat}
    (h : sufLen (c :: rest) = some m) :
    scanF (f + 1) (c :: rest) =
      ((scanF f ((c :: rest).drop m)).1,
        (c :: rest).take m :: (scanF f ((c :: rest).drop m)).2) := by
  simp only [scanF, h]

theorem scanF_inf {f : Nat} {c : Char} {rest : List Char} {j : Nat}
    (hsuf : sufLen (c :: rest) = none) (h : infIdx (c :: rest) = some j) :
    scanF (f + 1) (c :: rest) =
      ((scanF f (rest.drop (j + 1))).1,
        (c :: rest).take (j + 2) :: (scanF f (rest.drop (j + 1))).2) := by
  simp only [scanF, hsuf, h]

theorem scanF_keep {f : Nat} {c : Char} {rest : List Char}
    (hsuf : sufLen (c :: rest) = none) (hinf : infIdx (c :: rest) = none) :
    scanF (f + 1) (c :: rest) = (c :: (scanF f rest).1, (scanF f rest).2) := by
  simp only [scanF, hsuf, hinf]

theorem scanF_mem : ∀ (f : Nat) (s : List Char), ∀ x ∈ (scanF f s).1, x ∈ s := by
  intro f
  induction f with
  | zero =>
    intro s x hx
    rcases s with _ | ⟨c, rest⟩
    · rw [scanF_nil] at hx
      simp at hx
    · exact hx
  | succ f ih =>
    intro s x hx
    rcases s with _ | ⟨c, rest⟩
    · rw [scanF_nil] at hx
      simp at hx
    · rcases hsuf : sufLen (c :: rest) with _ | m
      · rcases hinf : infIdx (c :: rest) with _ | j
        · rw [scanF_keep hsuf hinf] at hx
          rcases List.mem_cons.mp hx with rfl | hx2
          · exact List.mem_cons_self ..
          · exact List.mem_cons_of_mem _ (ih rest x hx2)
        · rw [scanF_inf hsuf hinf] at hx
          exact List.mem_cons_of_mem _
            (List.drop_subset _ _ (ih (rest.drop (j + 1)) x hx))
      · rw [scanF_suf hsuf] at hx
        exact List.drop_subset _ _ (ih _ x hx)

theorem scanF_all_nonspace : ∀ (f : Nat) (s : List Char),
    (scanF f s).1.all nonspace = true → s.all nonspace = true := by
  intro f
  induction f with
  | zero =>
    intro s h
    rcases s with _ | ⟨c, rest⟩
    · simp
    · exact h
  | succ f ih =>
    intro s h
    rcases s with _ | ⟨c, rest⟩
    · simp
    · rcases hsuf : sufLen (c :: rest) with _ | m
      · rcases hinf : infIdx (c :: rest) with _ | j
        · rw [scanF_keep hsuf hinf] at h
          simp only [List.all_cons, Bool.and_eq_true] at h ⊢
          exact ⟨h.1, ih rest h.2⟩
        · rw [scanF_inf hsuf hinf] at h
          have h2 := ih _ h
          have hchunk := infChunk_nonspace hinf
          rw [← List.take_append_drop (j + 2) (c :: rest), List.all_append]
          have hdrop : (c :: rest).drop (j + 2) = rest.drop (j + 1) :=
            List.drop_succ_cons ..
          rw [hdrop]
          simp [h2]
          simpa using hchunk
      · rw [scanF_suf hsuf] at h
        have hspec := sufLen_spec hsuf
        have h2 := ih _ h
        rw [← List.take_append_drop m (c :: rest), List.all_append]
        simp [hspec.2.1, h2]

theorem scanF_pos_transfer : ∀ (f : Nat) (s : List Char) (j : Nat) (ch : Char),
    nonspace ch = true →
    ((scanF f s).1.take j).all nonspace = true →
    (scanF f s).1[j]? = some ch →
    ∃ q, j ≤ q ∧ (s.take q).all nonspace = true ∧ s[q]? = some ch := by
  intro f
  induction f with
  | zero =>
    intro s j ch hch htk hget
    rcases s with _ | ⟨c, rest⟩
    · rw [scanF_nil] at hget
      simp at hget
    · exact ⟨j, le_refl j, htk, hget⟩
  | succ f ih =>
    intro s j ch hch htk hget
    rcases s with _ | ⟨c, rest⟩
    · rw [scanF_nil] at hget
      simp at hget
    · rcases hsuf : sufLen (c :: rest) with _ | m
      · rcases hinf : infIdx (c :: rest) with _ | j0
        · rw [scanF_keep hsuf hinf] at htk hget
          rcases j with _ | j
          · simp only [List.getElem?_cons_zero, Option.some.injEq] at hget
            subst hget
            exact ⟨0, le_refl 0, by simp, by simp⟩
          · rw [List.take_succ_cons] at htk
            simp only [List.all_cons, Bool.and_eq_true] at htk
            simp only [List.getElem?_cons_succ] at hget
            rcases ih rest j ch hch htk.2 hget with ⟨q, hq1, hq2, hq3⟩
            refine ⟨q + 1, by omega, ?_, by simpa using hq3⟩
            rw [List.take_succ_cons]
            simp [htk.1, hq2]
        · rw [scanF_inf hsuf hinf] at htk hget
          rcases ih _ j ch hch htk hget with ⟨q, hq1, hq2, hq3⟩
          have hchunk := infChunk_nonspace hinf
          have hdrop : (c :: rest).drop (j0 + 2) = rest.drop (j0 + 1) :=
            List.drop_succ_cons ..
          refine ⟨(j0 + 2) + q, by omega, ?_, ?_⟩
          · rw [List.take_add, List.all_append, hdrop]
            simp [hq2]
            simpa using hchunk
          · rw [show (c :: rest)[(j0 + 2) + q]? = ((c :: rest).drop (j0 + 2))[q]? from
              (List.getElem?_drop ..).symm, hdrop]
            exact hq3
      · rw [scanF_suf hsuf] at htk hget
        rcases ih _ j ch hch htk hget with ⟨q, hq1, hq2, hq3⟩
        have hspec := sufLen_spec hsuf
        refine ⟨m + q, by omega, ?_, ?_⟩
        · rw [List.take_add, List.all_append]
          simp [hspec.2.1, hq2]
        · rw [show (c :: rest)[m + q]? = ((c :: rest).drop m)[q]? from
            (List.getElem?_drop ..).symm]
          exact hq3

/-- Scanning the kept output of a scan removes nothing further, for inputs
without a newline (the before-final-newline behaviour of the regex `$` breaks
this for inputs containing one). -/
theorem scanF_idem : ∀ (f : Nat) (s : List Char), s.length ≤ f → '\n' ∉ s →
    scanF (scanF f s).1.length (scanF f s).1 = ((scanF f s).1, []) := by
  intro f
  induction f with
  | zero =>
    intro s hlen _
    have hs : s = [] := List.length_eq_zero.mp (by omega)
    subst hs
    simp [scanF_nil]
  | succ f ih =>
    intro s hlen hnl
    rcases s with _ | ⟨c, rest⟩
    · simp [scanF_nil]
    · have hlen2 : rest.length ≤ f := by
        simp only [List.length_cons] at hlen
        omega
      have hnlr : '\n' ∉ rest := fun hm => hnl (List.mem_cons_of_mem _ hm)
      have hnc : c ≠ '\n' := fun he => hnl (he ▸ List.mem_cons_self ..)
      rcases hsuf : sufLen (c :: rest) with _ | m
      · rcases hinf : infIdx (c :: rest) with _ | j0
        · -- keep case: show neither pattern matches the kept output either
          have hnlk : '\n' ∉ (scanF f rest).1 :=
            fun hm => hnlr (scanF_mem f rest _ hm)
          have hsuf2 : sufLen (c :: (scanF f rest).1) = none := by
            rcases hs : sufLen (c :: (scanF f rest).1) with _ | m2
            · rfl
            · exfalso
              rcases (sufLen_spec hs).2.2 with ⟨_, rest2, heq, hne, hall, _⟩ | ⟨_, hmem⟩
              · injection heq with hc hk
                subst hc
                have hallk : (scanF f rest).1.all nonspace = true := by
                  rw [hk]; exact hall
                have hrestall : rest.all nonspace = true :=
                  scanF_all_nonspace f rest hallk
                have hrestne : rest ≠ [] := by
                  intro he
                  apply hne
                  rw [← hk, he, scanF_nil]
                rw [sufLen_full hrestne hrestall] at hsuf
                exact Option.noConfusion hsuf
              · rcases List.mem_cons.mp hmem with he | hm
                · exact hnc he.symm
                · exact hnlk hm
          have hinf2 : infIdx (c :: (scanF f rest).1) = none := by
            rcases hs : infIdx (c :: (scanF f rest).1) with _ | j2
            · rfl
            · exfalso
              rcases infIdx_spec hs with ⟨rest2, heq, h1, htk, hget⟩
              injection heq with hc hk
              subst hc
              have htk2 : ((scanF f rest).1.take j2).all nonspace = true := by
                rw [hk]; exact htk
              have hget2 : (scanF f rest).1[j2]? = some '>' := by
                rw [hk]; exact hget
              rcases scanF_pos_transfer f rest j2 '>' (by decide) htk2 hget2 with
                ⟨q, hq1, hq2, hq3⟩
              exact infIdx_none_no_hit hinf q (by omega) hq2 hq3
          rw [scanF_keep hsuf hinf]
          show scanF ((scanF f rest).1.length + 1) (c :: (scanF f rest).1) =
            (c :: (scanF f rest).1, [])
          rw [scanF_keep hsuf2 hinf2, ih rest hlen2 hnlr]
        · -- infix match: the kept output comes from a strictly later tail
          rw [scanF_inf hsuf hinf]
          have hlen3 : (rest.drop (j0 + 1)).length ≤ f := by
            simp only [List.length_drop]
            omega
          have hnl3 : '\n' ∉ rest.drop (j0 + 1) :=
            fun hm => hnlr (List.drop_subset _ _ hm)
          simpa using ih (rest.drop (j0 + 1)) hlen3 hnl3
      · -- suffix match: without a newline it consumes everything
        rw [scanF_suf hsuf]
        rcases (sufLen_spec hsuf).2.2 with ⟨hdrop, _⟩ | ⟨_, hmem⟩
        · rw [hdrop]
          simp [scanF_nil]
        · exact absurd hmem hnl

theorem rmPair_none {s : List Char} (h : preIdx s = none) :
    rmAffixesPair s = scan s := by
  simp only [rmAffixesPair, h]

theorem rmPair_some {s : List Char} {k : Nat} (h : preIdx s = some k) :
    rmAffixesPair s =
      ((scan (s.drop (k + 1))).1, s.take (k + 1) :: (scan (s.drop (k + 1))).2) := by
  simp only [rmAffixesPair, h]

theorem rmPair_mem {s : List Char} {x : Char} (hx : x ∈ (rmAffixesPair s).1) :
    x ∈ s := by
  rcases hps : preIdx s with _ | k0
  · rw [rmPair_none hps] at hx
    exact scanF_mem _ _ _ hx
  · rw [rmPair_some hps] at hx
    exact List.drop_subset _ _ (scanF_mem _ _ _ hx)

/-- The root produced by the substitution pass admits no anchored-start match:
the original pass would have consumed it (greedy maximality for the original
start match, direct transfer when there was none). -/
theorem rmPair_preIdx_none (s : List Char) : preIdx (rmAffixesPair s).1 = none := by
  rcases hps : preIdx s with _ | k0
  · rw [rmPair_none hps]
    rcases hp : preIdx (scan s).1 with _ | k
    · rfl
    · exfalso
      rcases preIdx_spec hp with ⟨h1, htk, hget⟩
      rcases scanF_pos_transfer s.length s k '-' (by decide) htk hget with
        ⟨q, hq1, hq2, hq3⟩
      exact preIdx_none hps q (by omega) hq2 hq3
  · rw [rmPair_some hps]
    show preIdx (scan (s.drop (k0 + 1))).1 = none
    rcases hp : preIdx (scan (s.drop (k0 + 1))).1 with _ | k
    · rfl
    · exfalso
      rcases preIdx_spec hp with ⟨h1, htk, hget⟩
      rcases scanF_pos_transfer (s.drop (k0 + 1)).length (s.drop (k0 + 1)) k '-'
        (by decide) htk hget with ⟨q, hq1, hq2, hq3⟩
      have hall : (s.take ((k0 + 1) + q)).all nonspace = true := by
        rw [List.take_add, List.all_append]
        have hchunk := preChunk_nonspace hps
        simp [hchunk, hq2]
      have hgets : s[(k0 + 1) + q]? = some '-' := by
        rw [show s[(k0 + 1) + q]? = (s.drop (k0 + 1))[q]? from
          (List.getElem?_drop ..).symm]
        exact hq3
      have := preIdx_max hps ((k0 + 1) + q) hall hgets
      omega

/-- Counterexample to claim C8: stripping is not idempotent on every string.
For "-a\n-b" the first pass removes only "-b" (the `$` of `-\S+$` does not
match before the inner newline), giving root "-a\n"; the second pass then
matches "-a" before the now-final newline, giving "\n". -/
theorem C8_strip_not_idempotent_newline :
    rm_affixes (rm_affixes "-a\n-b") ≠ rm_affixes "-a\n-b" := by decide

/-- Claim C8 as amended: the affix stripper is idempotent on its root for
every string containing no newline character (for such strings the regex `$`
is plain end-of-string and every removable marker is consumed in the first
pass). -/
theorem C8_strip_idempotent_no_newline (s : String) (h : '\n' ∉ s.data) :
    rm_affixes (rm_affixes s) = rm_affixes s := by
  unfold rm_affixes
  congr 1
  have hdata : (String.mk (rmAffixesPair s.data).1).data = (rmAffixesPair s.data).1 := rfl
  rw [hdata]
  have hpre := rmPair_preIdx_none s.data
  rw [rmPair_none hpre]
  rcases hps : preIdx s.data with _ | k0
  · rw [rmPair_none hps]
    have h2 := congrArg Prod.fst (scanF_idem s.data.length s.data (le_refl _) h)
    exact h2
  · rw [rmPair_some hps]
    show (scan (scan (s.data.drop (k0 + 1))).1).1 = (scan (s.data.drop (k0 + 1))).1
    have hnl2 : '\n' ∉ s.data.drop (k0 + 1) := fun hm => h (List.drop_subset _ _ hm)
    have h2 := congrArg Prod.fst
      (scanF_idem (s.data.drop (k0 + 1)).length (s.data.drop (k0 + 1)) (le_refl _) hnl2)
    exact h2

/-- Witness for the amended C8 at a concrete newline-free input. -/
theorem C8_witness :
    rm_affixes (rm_affixes "t<um>ulak") = rm_affixes "t<um>ulak" :=
  C8_strip_idempotent_no_newline "t<um>ulak" (by decide)

end RefDisp
